import Mathlib

/-!
Shallow embedding of `ngesh/output.py`: the two tree serializers
`tree2wordlist` and `tree2nexus`.

A tree is modelled by its list of leaves in traversal order (the only
access the serializers make is `tree.get_leaves()`).  A leaf carries a
`name` and an optional character vector `chars`; `chars = none` models a
leaf object on which the attribute access `leaf.chars` raises
`AttributeError`.  Character states are modelled as strings (`str(state)`
on a string is the identity).  Python exceptions are modelled by the
`PyError` type and fallible functions return `Except PyError _`.
-/

/-- The Python exceptions that the code in `output.py` can raise. -/
inductive PyError where
  | attributeError : PyError
  | valueError : PyError
  | indexError : PyError
deriving DecidableEq, Repr

/-- A leaf of the tree: `name`, and `chars` if the attribute is set. -/
structure Leaf where
  name : String
  chars : Option (List String)
deriving DecidableEq, Repr

/-! ## tree2wordlist -/

/-- Python truthiness of the `num_chars` variable: `None` and `0` are
falsy, a positive integer is truthy (`if not num_chars: ...`). -/
def truthy : Option Nat → Bool
  | some (_ + 1) => true
  | _ => false

/-- `if not num_chars: num_chars = len(leave.chars)` — keeps a truthy
value, otherwise recomputes it from the current leaf, raising
`AttributeError` when the leaf has no `chars` attribute. -/
def setNumChars (numChars : Option Nat) (l : Leaf) : Except PyError Nat :=
  match numChars with
  | some (n + 1) => Except.ok (n + 1)
  | _ =>
    match l.chars with
    | none => Except.error PyError.attributeError
    | some cs => Except.ok cs.length

/-- Monadic map over a list in `Except`: the first error aborts the whole
list, as a Python list comprehension does. -/
def exceptMap (f : α → Except PyError β) : List α → Except PyError (List β)
  | [] => Except.ok []
  | x :: xs =>
    match f x with
    | Except.error e => Except.error e
    | Except.ok y =>
      match exceptMap f xs with
      | Except.error e => Except.error e
      | Except.ok ys => Except.ok (y :: ys)

/-- One wordlist row `"<name>,feature_<idx>,<state>"`; `leave.chars[idx]`
raises `IndexError` when `idx` is out of range. -/
def mkRow (name : String) (cs : List String) (idx : Nat) : Except PyError String :=
  match cs[idx]? with
  | none => Except.error PyError.indexError
  | some st => Except.ok (name ++ ",feature_" ++ Nat.repr idx ++ "," ++ st)

/-- The rows of one leaf: `[[name, "feature_%i" % idx, str(chars[idx])]
for idx in range(num_chars)]`.  Accessing `leave.chars` on a leaf without
the attribute raises `AttributeError` (only reached when `n > 0`). -/
def mkRows (name : String) (chars? : Option (List String)) (n : Nat) :
    Except PyError (List String) :=
  exceptMap
    (fun idx =>
      match chars? with
      | none => Except.error PyError.attributeError
      | some cs => mkRow name cs idx)
    (List.range n)

/-- The leaf loop of `tree2wordlist`, threading `num_chars` and
collecting the data rows. -/
def tree2wordlistAux : List Leaf → Option Nat → Except PyError (List String)
  | [], _ => Except.ok []
  | l :: rest, numChars =>
    match setNumChars numChars l with
    | Except.error e => Except.error e
    | Except.ok n =>
      match mkRows l.name l.chars n with
      | Except.error e => Except.error e
      | Except.ok rows =>
        match tree2wordlistAux rest (some n) with
        | Except.error e => Except.error e
        | Except.ok more => Except.ok (rows ++ more)

/-- `tree2wordlist`: header row, then the rows of every leaf,
newline-joined. -/
def tree2wordlist (tree : List Leaf) : Except PyError String :=
  match tree2wordlistAux tree none with
  | Except.error e => Except.error e
  | Except.ok rows =>
    Except.ok (String.intercalate "\n" ("Language_ID,Feature_ID,Value" :: rows))

/-! ## tree2nexus -/

/-- One insertion into a Python dict: an existing key keeps its position
and gets the new value, a new key is appended. -/
def dictInsert (d : List (String × α)) (k : String) (v : α) : List (String × α) :=
  if d.any (fun p => p.1 = k) then
    d.map (fun p => if p.1 = k then (k, v) else p)
  else d ++ [(k, v)]

/-- A Python dict built from a list of key-value pairs in order
(dict-comprehension semantics: first-occurrence position, last value). -/
def pyDict (ps : List (String × α)) : List (String × α) :=
  ps.foldl (fun d p => dictInsert d p.1 p.2) []

/-- `data` and `missing_chars`: the `try`/`except AttributeError` block.
The comprehension `{leaf.name: leaf.chars for leaf in tree.get_leaves()}`
aborts on the first leaf without a `chars` attribute, so one such leaf
makes the whole tree character-less. -/
def nexusData (tree : List Leaf) : List (String × List String) × Bool :=
  if tree.any (fun l => l.chars.isNone) then
    (pyDict (tree.map (fun l => (l.name, []))), true)
  else
    (pyDict (tree.map (fun l => (l.name, l.chars.getD []))), false)

/-- The length of the longest value list (the number of tuples
`itertools.zip_longest` yields). -/
def maxLenVals (vals : List (List String)) : Nat :=
  vals.foldr (fun v m => max v.length m) 0

/-- `itertools.zip_longest(*vals)` with fill value `None`: position `i`
holds, for each list, its element at `i` or `none` past its end. -/
def zipLongest (vals : List (List String)) : List (List (Option String)) :=
  (List.range (maxLenVals vals)).map (fun i => vals.map (fun v => v[i]?))

/-- A Python set of the listed elements.  The concrete iteration order of
a CPython set is unspecified; it is modelled here by the deterministic
first-seen order, which no theorem below depends on (only membership,
distinctness and size matter). -/
def pySet (l : List (Option String)) : List (Option String) :=
  l.foldl (fun acc x => if x ∈ acc then acc else acc ++ [x]) []

/-- `concept_states`: per position, the set of states observed across all
taxa (`None` fills included). -/
def conceptStates (vals : List (List String)) : List (List (Option String)) :=
  (zipLongest vals).map pySet

/-- The binary string of one taxon: for each position of its own vector,
one bit per state of that position's alphabet (`"01"[value]`).  Inside
`tree2nexus` the index is always in range — every value list is at most
`maxLenVals` long — so the `getD []` default is never taken. -/
def binStringFor (cs : List String) (states : List (List (Option String))) : String :=
  String.mk
    ((cs.enum.flatMap
        (fun p => (states[p.1]?.getD []).map (fun st => decide (st = some p.2)))).map
      (fun b => if b then '1' else '0'))

/-- `bin_strings`, in dict order. -/
def nexusBinStrings (tree : List Leaf) : List (String × String) :=
  let data := (nexusData tree).1
  let states := conceptStates (data.map Prod.snd)
  data.map (fun p => (p.1, binStringFor p.2 states))

/-- `"%-Ns" % s`: left-justify in a field of `n` columns (never
truncates). -/
def pyLjust (s : String) (n : Nat) : String :=
  s ++ String.mk (List.replicate (n - s.length) ' ')

/-- `name.replace(" ", "_")` for the single-character pattern. -/
def replaceSpaces (s : String) : String :=
  String.mk (s.data.map (fun c => if c = ' ' then '_' else c))

/-- `max_len`: the length of the longest taxon name (over the dict
keys). -/
def nexusMaxLen (tree : List Leaf) : Nat :=
  ((nexusData tree).1.map (fun p => p.1.length)).foldl max 0

/-- The `dimensions` line: `ntax` is the number of dict entries, `nchar`
the length of the binary string of the first taxon
(`len(list(bin_strings.values())[0])`; the dict is non-empty wherever
this line is built, so `headD ""` is exact). -/
def nexusDimsLine (tree : List Leaf) : String :=
  "  dimensions ntax=" ++ Nat.repr (nexusBinStrings tree).length ++ " nchar="
    ++ Nat.repr (((nexusBinStrings tree).map Prod.snd).headD "").length ++ ";"

/-- The list `buf` of lines of the NEXUS output.  `max(...)` over the
empty name list raises `ValueError`, which is the first failure point on
an empty tree. -/
def tree2nexusBuf (tree : List Leaf) : Except PyError (List String) :=
  if (nexusData tree).1.isEmpty then Except.error PyError.valueError
  else
    Except.ok
      (["#NEXUS", ""]
        ++ (if (nexusData tree).2 then ["[WARNING: characters missing from tree]\n"]
            else [])
        ++ ["begin data;",
            nexusDimsLine tree,
            "  format datatype=standard missing=? gap=-;",
            "  matrix"]
        ++ (nexusBinStrings tree).map
            (fun p => pyLjust (replaceSpaces p.1) (nexusMaxLen tree + 3) ++ " " ++ p.2)
        ++ ["  ;", "end;"])

/-- `tree2nexus`: the joined buffer. -/
def tree2nexus (tree : List Leaf) : Except PyError String :=
  match tree2nexusBuf tree with
  | Except.error e => Except.error e
  | Except.ok buf => Except.ok (String.intercalate "\n" buf)

/-- The sum, over character positions, of the alphabet size at that
position (what the spec says `nchar` is). -/
def alphabetSizeSum (tree : List Leaf) : Nat :=
  ((conceptStates ((nexusData tree).1.map Prod.snd)).map List.length).sum

/-- The number of `'1'` characters in a string. -/
def countOnes (s : String) : Nat :=
  s.data.count '1'

/-! ## Helper lemmas: `exceptMap` and the wordlist loop -/

lemma exceptMap_ok {f : α → Except PyError β} :
    ∀ {l : List α} {ys : List β}, exceptMap f l = Except.ok ys →
      ys.length = l.length ∧ ∀ y ∈ ys, ∃ x ∈ l, f x = Except.ok y := by
  intro l
  induction l with
  | nil =>
    intro ys h
    simp only [exceptMap] at h
    cases h
    simp
  | cons x xs ih =>
    intro ys h
    simp only [exceptMap] at h
    cases hfx : f x with
    | error e => rw [hfx] at h; cases h
    | ok y =>
      rw [hfx] at h
      cases hxs : exceptMap f xs with
      | error e => rw [hxs] at h; cases h
      | ok ys' =>
        rw [hxs] at h
        cases h
        obtain ⟨hlen, hmem⟩ := ih hxs
        refine ⟨by simp [hlen], ?_⟩
        intro z hz
        rcases List.mem_cons.mp hz with hz | hz
        · exact ⟨x, List.mem_cons_self x xs, hz ▸ hfx⟩
        · obtain ⟨w, hw, hfw⟩ := hmem z hz
          exact ⟨w, List.mem_cons_of_mem x hw, hfw⟩

lemma exceptMap_ok_of_all {f : α → Except PyError β} :
    ∀ {l : List α}, (∀ x ∈ l, ∃ y, f x = Except.ok y) →
      ∃ ys, exceptMap f l = Except.ok ys ∧ ys.length = l.length := by
  intro l
  induction l with
  | nil => intro _; exact ⟨[], rfl, rfl⟩
  | cons x xs ih =>
    intro h
    obtain ⟨y, hy⟩ := h x (List.mem_cons_self x xs)
    obtain ⟨ys, hys, hlen⟩ := ih (fun z hz => h z (List.mem_cons_of_mem x hz))
    exact ⟨y :: ys, by simp [exceptMap, hy, hys], by simp [hlen]⟩

/-- Success and row count of `mkRows` when the vector is long enough. -/
lemma mkRows_ok (name : String) {cs : List String} {n : Nat} (h : n ≤ cs.length) :
    ∃ rows, mkRows name (some cs) n = Except.ok rows ∧ rows.length = n := by
  have hall : ∀ idx ∈ List.range n,
      ∃ y, (match (some cs : Option (List String)) with
            | none => Except.error PyError.attributeError
            | some cs => mkRow name cs idx) = Except.ok y := by
    intro idx hidx
    have hlt : idx < cs.length := lt_of_lt_of_le (List.mem_range.mp hidx) h
    refine ⟨name ++ ",feature_" ++ Nat.repr idx ++ "," ++ cs[idx], ?_⟩
    simp only [mkRow, List.getElem?_eq_getElem hlt]
  obtain ⟨rows, hr, hl⟩ := exceptMap_ok_of_all hall
  exact ⟨rows, hr, by simpa using hl⟩

/-- The shape of every data row produced by the leaf loop: it comes from
some leaf of the tree and one in-range index of that leaf's vector. -/
lemma wordlistAux_row_shape :
    ∀ (tree : List Leaf) (numChars : Option Nat) (rows : List String),
      tree2wordlistAux tree numChars = Except.ok rows →
      ∀ r ∈ rows, ∃ l ∈ tree, ∃ cs idx st, l.chars = some cs ∧ cs[idx]? = some st ∧
        r = l.name ++ ",feature_" ++ Nat.repr idx ++ "," ++ st := by
  intro tree
  induction tree with
  | nil =>
    intro numChars rows h
    simp only [tree2wordlistAux] at h
    cases h
    simp
  | cons l rest ih =>
    intro numChars rows h
    cases hset : setNumChars numChars l with
    | error e => simp [tree2wordlistAux, hset] at h
    | ok n =>
      cases hrows : mkRows l.name l.chars n with
      | error e => simp [tree2wordlistAux, hset, hrows] at h
      | ok rows0 =>
        cases hrest : tree2wordlistAux rest (some n) with
        | error e => simp [tree2wordlistAux, hset, hrows, hrest] at h
        | ok more =>
          simp only [tree2wordlistAux, hset, hrows, hrest, Except.ok.injEq] at h
          subst h
          intro r hr
          rcases List.mem_append.mp hr with hr | hr
          · simp only [mkRows] at hrows
            obtain ⟨idx, hidx, hfx⟩ := (exceptMap_ok hrows).2 r hr
            cases hcs : l.chars with
            | none => simp [hcs] at hfx
            | some cs =>
              simp only [hcs, mkRow] at hfx
              cases hget : cs[idx]? with
              | none => simp [hget] at hfx
              | some st =>
                simp only [hget, Except.ok.injEq] at hfx
                exact ⟨l, List.mem_cons_self l rest, cs, idx, st, hcs, hget, hfx.symm⟩
          · obtain ⟨l', hl', rest'⟩ := ih (some n) more hrest r hr
            exact ⟨l', List.mem_cons_of_mem l hl', rest'⟩

/-- With a positive `num_chars` already fixed and every remaining leaf
carrying at least that many characters, the loop succeeds and each leaf
yields exactly `num_chars` rows. -/
lemma wordlistAux_fixed_count {n : Nat} (hn : 0 < n) :
    ∀ (tree : List Leaf),
      (∀ l ∈ tree, ∃ cs, l.chars = some cs ∧ n ≤ cs.length) →
      ∃ rows, tree2wordlistAux tree (some n) = Except.ok rows ∧
        rows.length = tree.length * n := by
  intro tree
  induction tree with
  | nil => intro _; exact ⟨[], rfl, by simp⟩
  | cons l rest ih =>
    intro h
    obtain ⟨cs, hcs, hlen⟩ := h l (List.mem_cons_self l rest)
    obtain ⟨rows0, hrows0, hlen0⟩ := mkRows_ok l.name hlen
    obtain ⟨more, hmore, hlenm⟩ := ih (fun z hz => h z (List.mem_cons_of_mem l hz))
    obtain ⟨m, rfl⟩ := Nat.exists_eq_add_of_lt hn
    refine ⟨rows0 ++ more, ?_, ?_⟩
    · simp only [tree2wordlistAux, setNumChars, hcs, hrows0, hmore]
    · simp only [List.length_append, hlen0, hlenm, List.length_cons]
      ring

/-- When every leaf has an empty character vector, `num_chars` stays
falsy and the loop emits no rows at all. -/
lemma wordlistAux_all_empty :
    ∀ (tree : List Leaf) (numChars : Option Nat), truthy numChars = false →
      (∀ l ∈ tree, l.chars = some []) →
      tree2wordlistAux tree numChars = Except.ok [] := by
  intro tree
  induction tree with
  | nil => intro _ _ _; rfl
  | cons l rest ih =>
    intro numChars hf h
    have hcs : l.chars = some [] := h l (List.mem_cons_self l rest)
    have hset : setNumChars numChars l = Except.ok 0 := by
      cases numChars with
      | none => simp [setNumChars, hcs]
      | some k =>
        cases k with
        | zero => simp [setNumChars, hcs]
        | succ m => simp [truthy] at hf
    have hrest := ih (some 0) rfl (fun z hz => h z (List.mem_cons_of_mem l hz))
    simp only [tree2wordlistAux, hset, hrest, mkRows, List.range_zero, exceptMap,
      List.nil_append]

/-! ## Helper lemmas: `pySet` and `pyDict` -/

lemma mem_pySet_foldl (l : List (Option String)) :
    ∀ (acc : List (Option String)) (y : Option String),
      (y ∈ l.foldl (fun acc x => if x ∈ acc then acc else acc ++ [x]) acc) ↔
        y ∈ acc ∨ y ∈ l := by
  induction l with
  | nil => simp
  | cons x xs ih =>
    intro acc y
    simp only [List.foldl_cons]
    rw [ih]
    by_cases hx : x ∈ acc
    · simp only [if_pos hx, List.mem_cons]
      constructor
      · rintro (h | h)
        · exact Or.inl h
        · exact Or.inr (Or.inr h)
      · rintro (h | rfl | h)
        · exact Or.inl h
        · exact Or.inl hx
        · exact Or.inr h
    · simp only [if_neg hx, List.mem_append, List.mem_singleton, List.mem_cons]
      tauto

lemma mem_pySet {l : List (Option String)} {y : Option String} :
    y ∈ pySet l ↔ y ∈ l := by
  simpa [pySet] using mem_pySet_foldl l [] y

lemma nodup_pySet_foldl (l : List (Option String)) :
    ∀ (acc : List (Option String)), acc.Nodup →
      (l.foldl (fun acc x => if x ∈ acc then acc else acc ++ [x]) acc).Nodup := by
  induction l with
  | nil => intro acc h; exact h
  | cons x xs ih =>
    intro acc h
    simp only [List.foldl_cons]
    apply ih
    by_cases hx : x ∈ acc
    · simpa [if_pos hx]
    · simp [if_neg hx, List.nodup_append, h, hx]

lemma nodup_pySet (l : List (Option String)) : (pySet l).Nodup :=
  nodup_pySet_foldl l [] List.nodup_nil

lemma dictInsert_of_not_mem {α : Type} {d : List (String × α)} {k : String} {v : α}
    (h : k ∉ d.map Prod.fst) : dictInsert d k v = d ++ [(k, v)] := by
  have hc : ¬ ((d.any fun p => decide (p.1 = k)) = true) := by
    simp only [List.any_eq_true, decide_eq_true_eq, not_exists, not_and]
    intro p hp hk
    exact h (List.mem_map.mpr ⟨p, hp, hk⟩)
  simp only [dictInsert, if_neg hc]

lemma dictInsert_ne_nil {α : Type} (d : List (String × α)) (k : String) (v : α) :
    dictInsert d k v ≠ [] := by
  unfold dictInsert
  split
  · next hcond =>
    intro hnil
    rw [List.map_eq_nil_iff] at hnil
    subst hnil
    simp at hcond
  · simp

lemma foldl_dictInsert_ne_nil {α : Type} :
    ∀ (ps : List (String × α)) (acc : List (String × α)), acc ≠ [] →
      ps.foldl (fun d p => dictInsert d p.1 p.2) acc ≠ [] := by
  intro ps
  induction ps with
  | nil => intro acc h; exact h
  | cons p rest ih =>
    intro acc _
    simp only [List.foldl_cons]
    exact ih _ (dictInsert_ne_nil acc p.1 p.2)

lemma pyDict_ne_nil {α : Type} {ps : List (String × α)} (h : ps ≠ []) :
    pyDict ps ≠ [] := by
  cases ps with
  | nil => exact absurd rfl h
  | cons p rest =>
    simp only [pyDict, List.foldl_cons]
    exact foldl_dictInsert_ne_nil rest _ (by simp [dictInsert])

lemma foldl_dictInsert_nodup {α : Type} :
    ∀ (ps : List (String × α)) (acc : List (String × α)),
      (ps.map Prod.fst).Nodup → (∀ p ∈ ps, p.1 ∉ acc.map Prod.fst) →
      ps.foldl (fun d p => dictInsert d p.1 p.2) acc = acc ++ ps := by
  intro ps
  induction ps with
  | nil => intro acc _ _; simp
  | cons p rest ih =>
    intro acc hnodup hdisj
    simp only [List.foldl_cons]
    rw [dictInsert_of_not_mem (hdisj p (List.mem_cons_self p rest))]
    rw [ih (acc ++ [p]) (by simpa using hnodup.of_cons)]
    · simp
    · intro q hq
      simp only [List.map_append, List.mem_append, List.map_cons, List.map_nil,
        List.mem_singleton, not_or]
      refine ⟨hdisj q (List.mem_cons_of_mem p hq), ?_⟩
      intro hqp
      simp only [List.map_cons, List.nodup_cons] at hnodup
      exact hnodup.1 (hqp ▸ List.mem_map_of_mem Prod.fst hq)

lemma pyDict_eq_self {α : Type} {ps : List (String × α)}
    (h : (ps.map Prod.fst).Nodup) : pyDict ps = ps := by
  simpa [pyDict] using foldl_dictInsert_nodup ps [] h (by simp)

lemma pyDict_snd_all {α : Type} {c : α} :
    ∀ {ps : List (String × α)}, (∀ q ∈ ps, q.2 = c) →
      ∀ q ∈ pyDict ps, q.2 = c := by
  have step : ∀ (d : List (String × α)) (k : String) (v : α),
      (∀ q ∈ d, q.2 = c) → v = c → ∀ q ∈ dictInsert d k v, q.2 = c := by
    intro d k v hd hv q hq
    unfold dictInsert at hq
    split at hq
    · obtain ⟨p, hp, hpq⟩ := List.mem_map.mp hq
      by_cases hpk : p.1 = k
      · rw [if_pos hpk] at hpq; rw [← hpq]; exact hv
      · rw [if_neg hpk] at hpq; rw [← hpq]; exact hd p hp
    · rcases List.mem_append.mp hq with hq | hq
      · exact hd q hq
      · rw [List.mem_singleton.mp hq]; exact hv
  have main : ∀ (ps acc : List (String × α)), (∀ q ∈ acc, q.2 = c) →
      (∀ q ∈ ps, q.2 = c) →
      ∀ q ∈ ps.foldl (fun d p => dictInsert d p.1 p.2) acc, q.2 = c := by
    intro ps
    induction ps with
    | nil => intro acc hacc _; exact hacc
    | cons p rest ih =>
      intro acc hacc hps
      simp only [List.foldl_cons]
      exact ih _ (step acc p.1 p.2 hacc (hps p (List.mem_cons_self p rest)))
        (fun q hq => hps q (List.mem_cons_of_mem p hq))
  intro ps hps
  exact main ps [] (by simp) hps

/-! ## Helper lemmas: alphabets and binary strings -/

lemma length_le_maxLenVals {vals : List (List String)} {v : List String}
    (h : v ∈ vals) : v.length ≤ maxLenVals vals := by
  induction vals with
  | nil => cases h
  | cons w ws ih =>
    have hstep : maxLenVals (w :: ws) = max w.length (maxLenVals ws) := rfl
    rcases List.mem_cons.mp h with rfl | h
    · rw [hstep]; exact le_max_left _ _
    · rw [hstep]; exact le_trans (ih h) (le_max_right _ _)

lemma maxLenVals_of_all {vals : List (List String)} {n : Nat}
    (hne : vals ≠ []) (h : ∀ v ∈ vals, v.length = n) : maxLenVals vals = n := by
  induction vals with
  | nil => exact absurd rfl hne
  | cons w ws ih =>
    have hw : w.length = n := h w (List.mem_cons_self w ws)
    cases ws with
    | nil => simp [maxLenVals, hw]
    | cons u us =>
      have hrec : maxLenVals (u :: us) = n :=
        ih (by simp) (fun v hv => h v (List.mem_cons_of_mem w hv))
      show max w.length (maxLenVals (u :: us)) = n
      rw [hw, hrec, max_self]

lemma length_conceptStates (vals : List (List String)) :
    (conceptStates vals).length = maxLenVals vals := by
  simp [conceptStates, zipLongest]

lemma conceptStates_getElem? {vals : List (List String)} {i : Nat}
    (h : i < maxLenVals vals) :
    (conceptStates vals)[i]? = some (pySet (vals.map (fun v => v[i]?))) := by
  simp [conceptStates, zipLongest, List.getElem?_map, List.getElem?_range h]

lemma binStringFor_length (cs : List String) (states : List (List (Option String))) :
    (binStringFor cs states).length
      = ((List.range cs.length).map (fun i => (states[i]?.getD []).length)).sum := by
  simp only [binStringFor, String.length, List.length_map, List.length_flatMap]
  have h1 : (List.map
        (List.length ∘ fun p : Nat × String =>
          (states[p.1]?.getD []).map (fun st => decide (st = some p.2))) cs.enum)
      = List.map ((fun i => (states[i]?.getD []).length) ∘ Prod.fst) cs.enum := by
    apply List.map_congr_left
    intro p _
    simp [Function.comp]
  rw [h1, ← List.map_map, List.enum_map_fst]

lemma map_range_getD {α : Type} (l : List α) (d : α) :
    (List.range l.length).map (fun i => l[i]?.getD d) = l := by
  induction l with
  | nil => simp
  | cons a t ih =>
    rw [List.length_cons, List.range_succ_eq_map, List.map_cons, List.map_map]
    have hcomp : ((fun i => (a :: t)[i]?.getD d) ∘ Nat.succ) = (fun i => t[i]?.getD d) := by
      funext i
      simp
    rw [hcomp, ih]
    simp

lemma binStringFor_length_full {cs : List String} {states : List (List (Option String))}
    (h : cs.length = states.length) :
    (binStringFor cs states).length = (states.map List.length).sum := by
  rw [binStringFor_length, h]
  have h3 : (List.range states.length).map (fun i => (states[i]?.getD []).length)
      = states.map List.length := by
    calc (List.range states.length).map (fun i => (states[i]?.getD []).length)
        = ((List.range states.length).map (fun i => states[i]?.getD [])).map List.length := by
          rw [List.map_map]; rfl
      _ = states.map List.length := by rw [map_range_getD]
  rw [h3]

lemma binString_length_uniform {vals : List (List String)} {n : Nat}
    (hne : vals ≠ []) (hall : ∀ v ∈ vals, v.length = n) {v : List String} (hv : v ∈ vals) :
    (binStringFor v (conceptStates vals)).length
      = ((conceptStates vals).map List.length).sum := by
  apply binStringFor_length_full
  rw [length_conceptStates, maxLenVals_of_all hne hall]
  exact hall v hv

lemma count_one_map_boolchar (bits : List Bool) :
    List.count '1' (bits.map (fun b => if b then '1' else '0')) = List.count true bits := by
  induction bits with
  | nil => rfl
  | cons b bs ih =>
    cases b <;> simp [List.count_cons, ih]

lemma count_true_map_decide (x : Option String) (l : List (Option String)) :
    List.count true (l.map (fun st => decide (st = x))) = List.count x l := by
  induction l with
  | nil => rfl
  | cons y ys ih =>
    by_cases hy : y = x <;> simp [List.count_cons, hy, ih]

lemma count_true_flatMap {α : Type} (g : α → List Bool) (l : List α) :
    List.count true (l.flatMap g) = (l.map (fun a => List.count true (g a))).sum := by
  induction l with
  | nil => rfl
  | cons a as ih => simp [List.flatMap_cons, List.count_append, ih]

lemma sum_map_one {α : Type} :
    ∀ (l : List α) (f : α → Nat), (∀ a ∈ l, f a = 1) → (l.map f).sum = l.length := by
  intro l f
  induction l with
  | nil => intro _; rfl
  | cons a as ih =>
    intro h
    simp only [List.map_cons, List.sum_cons, List.length_cons,
      h a (List.mem_cons_self a as),
      ih (fun b hb => h b (List.mem_cons_of_mem a hb))]
    omega

lemma countOnes_binStringFor {cs : List String} {states : List (List (Option String))}
    (h : ∀ p ∈ cs.enum, List.count (some p.2) (states[p.1]?.getD []) = 1) :
    countOnes (binStringFor cs states) = cs.length := by
  show List.count '1'
      ((cs.enum.flatMap
        (fun p => (states[p.1]?.getD []).map (fun st => decide (st = some p.2)))).map
        (fun b => if b then '1' else '0')) = cs.length
  rw [count_one_map_boolchar, count_true_flatMap]
  rw [show cs.length = cs.enum.length from (List.enum_length).symm]
  apply sum_map_one
  intro p hp
  rw [count_true_map_decide]
  exact h p hp

lemma count_nodup_mem {α : Type} [BEq α] [LawfulBEq α] {a : α} :
    ∀ {l : List α}, l.Nodup → a ∈ l → List.count a l = 1 := by
  intro l
  induction l with
  | nil => intro _ h; cases h
  | cons b bs ih =>
    intro hn h
    obtain ⟨hb, hbs⟩ := List.nodup_cons.mp hn
    rw [List.count_cons]
    rcases List.mem_cons.mp h with rfl | h2
    · rw [List.count_eq_zero.mpr hb]
      simp
    · rw [ih hbs h2]
      have hba : (b == a) = false := by
        rw [beq_eq_false_iff_ne]
        rintro rfl
        exact hb h2
      simp [hba]

lemma concept_count_one {vals : List (List String)} {cs : List String} (hcs : cs ∈ vals)
    {p : Nat × String} (hp : p ∈ cs.enum) :
    List.count (some p.2) ((conceptStates vals)[p.1]?.getD []) = 1 := by
  obtain ⟨i, c⟩ := p
  have hmem := List.mem_enumFrom (by simpa [List.enum] using hp)
  have hlt : i < cs.length := by
    have h2 := hmem.2.1
    simpa using h2
  have hgetc : cs[i]? = some c := by
    rw [List.getElem?_eq_getElem hlt]
    have h3 := hmem.2.2
    simp only [Nat.sub_zero] at h3
    rw [h3]
  have hI : i < maxLenVals vals := lt_of_lt_of_le hlt (length_le_maxLenVals hcs)
  rw [conceptStates_getElem? hI]
  simp only [Option.getD_some]
  apply count_nodup_mem (nodup_pySet _)
  rw [mem_pySet]
  exact List.mem_map.mpr ⟨cs, hcs, hgetc⟩

lemma countOnes_data_entry {tree : List Leaf} {p : String × List String}
    (hp : p ∈ (nexusData tree).1) :
    countOnes (binStringFor p.2 (conceptStates ((nexusData tree).1.map Prod.snd)))
      = p.2.length := by
  apply countOnes_binStringFor
  intro q hq
  exact concept_count_one (List.mem_map_of_mem Prod.snd hp) hq

/-! ## Helper lemmas: the NEXUS buffer -/

lemma map_ne_nil {α β : Type} {l : List α} (h : l ≠ []) (f : α → β) : l.map f ≠ [] := by
  intro hh
  exact h (List.map_eq_nil_iff.mp hh)

lemma nexusData_fst_ne_nil {tree : List Leaf} (h : tree ≠ []) :
    (nexusData tree).1 ≠ [] := by
  unfold nexusData
  split
  · exact pyDict_ne_nil (map_ne_nil h _)
  · exact pyDict_ne_nil (map_ne_nil h _)

lemma nexusBinStrings_length (tree : List Leaf) :
    (nexusBinStrings tree).length = (nexusData tree).1.length := by
  simp [nexusBinStrings]

lemma tree2nexusBuf_ok {tree : List Leaf} (h : tree ≠ []) :
    tree2nexusBuf tree = Except.ok
      (["#NEXUS", ""]
        ++ (if (nexusData tree).2 then ["[WARNING: characters missing from tree]\n"]
            else [])
        ++ ["begin data;",
            nexusDimsLine tree,
            "  format datatype=standard missing=? gap=-;",
            "  matrix"]
        ++ (nexusBinStrings tree).map
            (fun p => pyLjust (replaceSpaces p.1) (nexusMaxLen tree + 3) ++ " " ++ p.2)
        ++ ["  ;", "end;"]) := by
  have hc : ¬ ((nexusData tree).1.isEmpty = true) := by
    rw [List.isEmpty_iff]
    exact nexusData_fst_ne_nil h
  unfold tree2nexusBuf
  rw [if_neg hc]

lemma mem_buf_dims {tree : List Leaf} (h : tree ≠ []) :
    ∀ buf, tree2nexusBuf tree = Except.ok buf → nexusDimsLine tree ∈ buf := by
  intro buf hbuf
  rw [tree2nexusBuf_ok h] at hbuf
  simp only [Except.ok.injEq] at hbuf
  subst hbuf
  simp

lemma mem_buf_matrix {tree : List Leaf} (h : tree ≠ []) {p : String × String}
    (hp : p ∈ nexusBinStrings tree) :
    ∀ buf, tree2nexusBuf tree = Except.ok buf →
      pyLjust (replaceSpaces p.1) (nexusMaxLen tree + 3) ++ " " ++ p.2 ∈ buf := by
  intro buf hbuf
  rw [tree2nexusBuf_ok h] at hbuf
  simp only [Except.ok.injEq] at hbuf
  subst hbuf
  apply List.mem_append_left
  apply List.mem_append_right
  exact List.mem_map_of_mem _ hp

lemma mem_buf_warning {tree : List Leaf} (h : tree ≠ [])
    (hm : (nexusData tree).2 = true) :
    ∀ buf, tree2nexusBuf tree = Except.ok buf →
      "[WARNING: characters missing from tree]\n" ∈ buf := by
  intro buf hbuf
  rw [tree2nexusBuf_ok h] at hbuf
  simp only [Except.ok.injEq] at hbuf
  subst hbuf
  simp [hm]

lemma nexusDimsLine_of_all_nil {tree : List Leaf} (hne : tree ≠ [])
    (hall : ∀ p ∈ (nexusData tree).1, p.2 = []) :
    nexusDimsLine tree
      = "  dimensions ntax=" ++ Nat.repr (nexusBinStrings tree).length ++ " nchar=0;" := by
  have hhead : ((nexusBinStrings tree).map Prod.snd).headD "" = "" := by
    unfold nexusBinStrings
    cases hd : (nexusData tree).1 with
    | nil => exact absurd hd (nexusData_fst_ne_nil hne)
    | cons p rest =>
      simp only [List.map_cons, List.headD_cons]
      rw [hall p (by rw [hd]; exact List.mem_cons_self p rest)]
      rfl
  unfold nexusDimsLine
  rw [hhead]
  simp only [String.append_assoc]
  rfl

lemma nexus_missing_case {tree : List Leaf} (hne : tree ≠ [])
    (h : tree.any (fun l => l.chars.isNone) = true) :
    (nexusData tree).2 = true ∧ (∀ p ∈ (nexusData tree).1, p.2 = []) ∧
    ∀ buf, tree2nexusBuf tree = Except.ok buf →
      "[WARNING: characters missing from tree]\n" ∈ buf ∧
      ("  dimensions ntax=" ++ Nat.repr (nexusBinStrings tree).length ++ " nchar=0;") ∈ buf := by
  have hmiss : (nexusData tree).2 = true := by
    unfold nexusData
    rw [if_pos h]
  have hvals : ∀ p ∈ (nexusData tree).1, p.2 = [] := by
    have hfst : (nexusData tree).1 = pyDict (tree.map (fun l => (l.name, []))) := by
      unfold nexusData
      rw [if_pos h]
    rw [hfst]
    apply pyDict_snd_all
    intro q hq
    obtain ⟨l, _, hlq⟩ := List.mem_map.mp hq
    rw [← hlq]
  refine ⟨hmiss, hvals, ?_⟩
  intro buf hbuf
  refine ⟨mem_buf_warning hne hmiss buf hbuf, ?_⟩
  rw [← nexusDimsLine_of_all_nil hne hvals]
  exact mem_buf_dims hne buf hbuf

lemma nexusData_length_of_nodup {tree : List Leaf}
    (hnd : (tree.map Leaf.name).Nodup) : (nexusData tree).1.length = tree.length := by
  unfold nexusData
  split
  · rw [pyDict_eq_self (by simpa [List.map_map, Function.comp] using hnd)]
    simp
  · rw [pyDict_eq_self (by simpa [List.map_map, Function.comp] using hnd)]
    simp

lemma nexus_uniform_core {tree : List Leaf} {n : Nat} (hne : tree ≠ [])
    (hall : ∀ v ∈ (nexusData tree).1.map Prod.snd, v.length = n) :
    ∀ p ∈ nexusBinStrings tree, p.2.length = alphabetSizeSum tree := by
  intro p hp
  simp only [nexusBinStrings] at hp
  obtain ⟨q, hq, hpq⟩ := List.mem_map.mp hp
  rw [← hpq]
  show (binStringFor q.2 (conceptStates ((nexusData tree).1.map Prod.snd))).length = _
  unfold alphabetSizeSum
  exact binString_length_uniform (map_ne_nil (nexusData_fst_ne_nil hne) _) hall
    (List.mem_map_of_mem Prod.snd hq)

lemma nexus_uniform_head {tree : List Leaf} {n : Nat} (hne : tree ≠ [])
    (hall : ∀ v ∈ (nexusData tree).1.map Prod.snd, v.length = n) :
    (((nexusBinStrings tree).map Prod.snd).headD "").length = alphabetSizeSum tree := by
  have hbs : nexusBinStrings tree ≠ [] := by
    simp only [nexusBinStrings]
    exact map_ne_nil (nexusData_fst_ne_nil hne) _
  cases hb : nexusBinStrings tree with
  | nil => exact absurd hb hbs
  | cons b rest =>
    simp only [List.map_cons, List.headD_cons]
    exact nexus_uniform_core hne hall b (hb ▸ List.mem_cons_self b rest)

/-! ## Claims -/

/-- C1 counterexample: on a tree with zero leaves, `tree2wordlist` raises
nothing at all — it returns just the header line — and `tree2nexus` fails
with a `ValueError` (Python `max` over the empty name sequence), not with
an `EmptyTreeError` (no such exception exists in the code). -/
theorem c1_counterexample :
    tree2wordlist [] = Except.ok "Language_ID,Feature_ID,Value" ∧
    tree2nexus [] = Except.error PyError.valueError := by
  constructor <;> rfl

/-- C1 (amended): for a tree with zero leaves, `tree2wordlist` succeeds,
returning only the header line, while `tree2nexus` fails with a
`ValueError` raised by `max` over the empty collection of taxon names. -/
theorem c1_empty_tree_amended :
    (∃ s, tree2wordlist [] = Except.ok s ∧ s = "Language_ID,Feature_ID,Value") ∧
    tree2nexusBuf [] = Except.error PyError.valueError :=
  ⟨⟨"Language_ID,Feature_ID,Value", rfl, rfl⟩, rfl⟩

/-- C2 counterexample: with character vectors of different lengths the
binary strings differ in length — each taxon is recoded only over its own
positions, the `zip_longest` padding affects the alphabets alone. -/
theorem c2_counterexample :
    nexusBinStrings [⟨"A", some ["x"]⟩, ⟨"B", some ["x", "y"]⟩]
      = [("A", "1"), ("B", "101")] ∧
    ("1" : String).length ≠ ("101" : String).length := by
  constructor
  · rfl
  · decide

/-- C2 (amended): the binary strings of all taxa have one common length —
that of the first taxon's string — provided all collected character
vectors have the same length; with unequal vectors the matrix is not
rectangular. -/
theorem c2_rectangular_amended (tree : List Leaf) (n : Nat) (hne : tree ≠ [])
    (hall : ∀ v ∈ (nexusData tree).1.map Prod.snd, v.length = n) :
    ∀ p ∈ nexusBinStrings tree,
      p.2.length = (((nexusBinStrings tree).map Prod.snd).headD "").length := by
  intro p hp
  rw [nexus_uniform_core hne hall p hp, nexus_uniform_head hne hall]

/-- C2 witness: the amended statement holds on a two-leaf tree with equal
vector lengths. -/
theorem c2_rectangular_witness :
    ([(⟨"A", some ["x"]⟩ : Leaf), ⟨"B", some ["y"]⟩] ≠ []) ∧
    (∀ v ∈ (nexusData [(⟨"A", some ["x"]⟩ : Leaf), ⟨"B", some ["y"]⟩]).1.map Prod.snd,
      v.length = 1) ∧
    (("B", "01") ∈ nexusBinStrings [(⟨"A", some ["x"]⟩ : Leaf), ⟨"B", some ["y"]⟩]) ∧
    (("B", "01") : String × String).2.length
      = (((nexusBinStrings [(⟨"A", some ["x"]⟩ : Leaf), ⟨"B", some ["y"]⟩]).map
          Prod.snd).headD "").length :=
  ⟨by decide, by decide, by decide,
    c2_rectangular_amended _ 1 (by decide) (by decide) ("B", "01") (by decide)⟩

/-- C3 counterexample: a first leaf with an empty vector emits no rows but
still counts as a leaf, so the row count falls short of
leaves × num_chars (num_chars = 1 from the first characterized leaf,
2 leaves, but only 1 data row). -/
theorem c3_counterexample :
    tree2wordlistAux [⟨"A", some []⟩, ⟨"B", some ["x"]⟩] none
      = Except.ok ["B,feature_0,x"] ∧
    (["B,feature_0,x"] : List String).length
      ≠ [(⟨"A", some []⟩ : Leaf), ⟨"B", some ["x"]⟩].length * (["x"] : List String).length := by
  constructor
  · rfl
  · decide

/-- C3 (amended): when the first leaf carries a non-empty character
vector, of length n, and every leaf has a `chars` attribute with at least
n characters, the loop succeeds and the number of data rows equals
(number of leaves) × n. -/
theorem c3_row_count_amended (l0 : Leaf) (rest : List Leaf) (cs0 : List String)
    (h0 : l0.chars = some cs0) (hpos : 0 < cs0.length)
    (hall : ∀ l ∈ l0 :: rest, ∃ cs, l.chars = some cs ∧ cs0.length ≤ cs.length) :
    (tree2wordlistAux (l0 :: rest) none).toOption.map List.length
      = some ((l0 :: rest).length * cs0.length) := by
  obtain ⟨rows0, hrows0, hlen0⟩ :=
    mkRows_ok l0.name (le_refl cs0.length)
  obtain ⟨more, hmore, hlenm⟩ :=
    wordlistAux_fixed_count hpos rest (fun z hz => hall z (List.mem_cons_of_mem l0 hz))
  have hset : setNumChars none l0 = Except.ok cs0.length := by
    simp [setNumChars, h0]
  have hrun : tree2wordlistAux (l0 :: rest) none = Except.ok (rows0 ++ more) := by
    simp only [tree2wordlistAux, hset, h0, hrows0, hmore]
  rw [hrun]
  show some ((rows0 ++ more).length) = some ((rest.length + 1) * cs0.length)
  rw [List.length_append, hlen0, hlenm]
  ring_nf

/-- C3 witness: the amended statement holds on a two-leaf tree whose first
leaf has two characters. -/
theorem c3_row_count_witness :
    ((⟨"A", some ["x", "y"]⟩ : Leaf).chars = some ["x", "y"]) ∧
    (0 < (["x", "y"] : List String).length) ∧
    (tree2wordlistAux [⟨"A", some ["x", "y"]⟩, ⟨"B", some ["y", "z", "w"]⟩] none).toOption.map
        List.length
      = some ([(⟨"A", some ["x", "y"]⟩ : Leaf), ⟨"B", some ["y", "z", "w"]⟩].length
          * (["x", "y"] : List String).length) := by
  refine ⟨rfl, by decide, ?_⟩
  apply c3_row_count_amended _ _ _ rfl (by decide)
  intro l hl
  rcases List.mem_cons.mp hl with rfl | hl
  · exact ⟨["x", "y"], rfl, by decide⟩
  · rcases List.mem_cons.mp hl with rfl | hl
    · exact ⟨["y", "z", "w"], rfl, by decide⟩
    · cases hl

/-- C4 counterexample: two leaves with the same name collapse into one
dict entry, so the printed ntax is 1 for a 2-leaf tree. -/
theorem c4_counterexample :
    (nexusBinStrings [⟨"A", some []⟩, ⟨"A", some []⟩]).length = 1 ∧
    [(⟨"A", some []⟩ : Leaf), ⟨"A", some []⟩].length = 2 ∧ (1 : Nat) ≠ 2 ∧
    tree2nexusBuf [⟨"A", some []⟩, ⟨"A", some []⟩] = Except.ok
      ["#NEXUS", "", "begin data;", "  dimensions ntax=1 nchar=0;",
       "  format datatype=standard missing=? gap=-;", "  matrix", "A    ",
       "  ;", "end;"] := by
  refine ⟨rfl, rfl, by decide, rfl⟩

/-- C4 (amended): the printed ntax equals the number of leaves provided
the leaf names are pairwise distinct (the dict keyed on names collapses
duplicates, so in general ntax is the number of distinct names). -/
theorem c4_ntax_amended (tree : List Leaf) (hne : tree ≠ [])
    (hnd : (tree.map Leaf.name).Nodup) :
    (nexusBinStrings tree).length = tree.length ∧
    ∀ buf, tree2nexusBuf tree = Except.ok buf →
      ("  dimensions ntax=" ++ Nat.repr tree.length ++ " nchar="
        ++ Nat.repr (((nexusBinStrings tree).map Prod.snd).headD "").length ++ ";") ∈ buf := by
  have hlen : (nexusBinStrings tree).length = tree.length := by
    rw [nexusBinStrings_length, nexusData_length_of_nodup hnd]
  refine ⟨hlen, ?_⟩
  intro buf hbuf
  have hd := mem_buf_dims hne buf hbuf
  unfold nexusDimsLine at hd
  rw [hlen] at hd
  exact hd

/-- C4 witness: the amended statement holds on a two-leaf tree with
distinct names. -/
theorem c4_ntax_witness :
    ([(⟨"A", some ["x"]⟩ : Leaf), ⟨"B", some ["x"]⟩] ≠ []) ∧
    (([(⟨"A", some ["x"]⟩ : Leaf), ⟨"B", some ["x"]⟩].map Leaf.name).Nodup) ∧
    (nexusBinStrings [(⟨"A", some ["x"]⟩ : Leaf), ⟨"B", some ["x"]⟩]).length
      = [(⟨"A", some ["x"]⟩ : Leaf), ⟨"B", some ["x"]⟩].length ∧
    ("  dimensions ntax=" ++ Nat.repr [(⟨"A", some ["x"]⟩ : Leaf), ⟨"B", some ["x"]⟩].length
        ++ " nchar="
        ++ Nat.repr (((nexusBinStrings [(⟨"A", some ["x"]⟩ : Leaf), ⟨"B", some ["x"]⟩]).map
            Prod.snd).headD "").length ++ ";")
      ∈ ["#NEXUS", "", "begin data;", "  dimensions ntax=2 nchar=1;",
         "  format datatype=standard missing=? gap=-;", "  matrix", "A    1", "B    1",
         "  ;", "end;"] :=
  ⟨by decide, by decide,
    (c4_ntax_amended _ (by decide) (by decide)).1,
    (c4_ntax_amended _ (by decide) (by decide)).2 _ rfl⟩

/-- C5 counterexample: the printed nchar is the length of the FIRST
taxon's binary string; when the first taxon's vector is shorter than
another's it undercounts the sum of the per-position alphabet sizes
(1 printed versus a total of 3). -/
theorem c5_counterexample :
    tree2nexusBuf [⟨"A", some ["x"]⟩, ⟨"B", some ["x", "y"]⟩] = Except.ok
      ["#NEXUS", "", "begin data;", "  dimensions ntax=2 nchar=1;",
       "  format datatype=standard missing=? gap=-;", "  matrix",
       "A    1", "B    101", "  ;", "end;"] ∧
    alphabetSizeSum [⟨"A", some ["x"]⟩, ⟨"B", some ["x", "y"]⟩] = 3 ∧ (1 : Nat) ≠ 3 := by
  refine ⟨rfl, rfl, by decide⟩

/-- C5 (amended): when all collected character vectors have the same
length, the printed nchar equals the sum, over character positions, of
the number of distinct observed states at that position. -/
theorem c5_nchar_amended (tree : List Leaf) (n : Nat) (hne : tree ≠ [])
    (hall : ∀ v ∈ (nexusData tree).1.map Prod.snd, v.length = n) :
    (((nexusBinStrings tree).map Prod.snd).headD "").length = alphabetSizeSum tree ∧
    ∀ buf, tree2nexusBuf tree = Except.ok buf →
      ("  dimensions ntax=" ++ Nat.repr (nexusBinStrings tree).length ++ " nchar="
        ++ Nat.repr (alphabetSizeSum tree) ++ ";") ∈ buf := by
  have hh := nexus_uniform_head hne hall
  refine ⟨hh, ?_⟩
  intro buf hbuf
  have hd := mem_buf_dims hne buf hbuf
  unfold nexusDimsLine at hd
  rw [hh] at hd
  exact hd

/-- C5 witness: the amended statement holds on a two-leaf tree with equal
vector lengths (nchar = 2 = alphabet-size sum). -/
theorem c5_nchar_witness :
    ([(⟨"A", some ["x"]⟩ : Leaf), ⟨"B", some ["y"]⟩] ≠ []) ∧
    (∀ v ∈ (nexusData [(⟨"A", some ["x"]⟩ : Leaf), ⟨"B", some ["y"]⟩]).1.map Prod.snd,
      v.length = 1) ∧
    (((nexusBinStrings [(⟨"A", some ["x"]⟩ : Leaf), ⟨"B", some ["y"]⟩]).map
        Prod.snd).headD "").length
      = alphabetSizeSum [(⟨"A", some ["x"]⟩ : Leaf), ⟨"B", some ["y"]⟩] ∧
    ("  dimensions ntax="
        ++ Nat.repr (nexusBinStrings [(⟨"A", some ["x"]⟩ : Leaf), ⟨"B", some ["y"]⟩]).length
        ++ " nchar="
        ++ Nat.repr (alphabetSizeSum [(⟨"A", some ["x"]⟩ : Leaf), ⟨"B", some ["y"]⟩]) ++ ";")
      ∈ ["#NEXUS", "", "begin data;", "  dimensions ntax=2 nchar=2;",
         "  format datatype=standard missing=? gap=-;", "  matrix", "A    10", "B    01",
         "  ;", "end;"] :=
  ⟨by decide, by decide,
    (c5_nchar_amended _ 1 (by decide) (by decide)).1,
    (c5_nchar_amended _ 1 (by decide) (by decide)).2 _ rfl⟩

/-- C6 counterexample: on a non-empty tree whose leaves lack the `chars`
attribute, `tree2wordlist` does not return the header line — it raises
`AttributeError` (`len(leave.chars)` is not guarded by any
`try`/`except`). -/
theorem c6_counterexample :
    tree2wordlist [⟨"A", none⟩] = Except.error PyError.attributeError ∧
    (Except.error PyError.attributeError : Except PyError String)
      ≠ Except.ok "Language_ID,Feature_ID,Value" := by
  refine ⟨rfl, fun h => Except.noConfusion h⟩

/-- C6 (amended): for a non-empty tree whose leaves all lack the `chars`
attribute, the NEXUS output contains the warning line and declares
nchar=0; for a non-empty tree whose leaves all have an empty `chars`
vector, the wordlist output is exactly the header line.  (With the
attribute absent, `tree2wordlist` instead raises `AttributeError`.) -/
theorem c6_no_chars_amended (t1 t2 : List Leaf) (h1 : t1 ≠ [])
    (hm : ∀ l ∈ t1, l.chars = none) (h2 : t2 ≠ [])
    (he : ∀ l ∈ t2, l.chars = some []) :
    (∀ buf, tree2nexusBuf t1 = Except.ok buf →
      "[WARNING: characters missing from tree]\n" ∈ buf ∧
      ("  dimensions ntax=" ++ Nat.repr (nexusBinStrings t1).length ++ " nchar=0;") ∈ buf) ∧
    tree2wordlist t2 = Except.ok "Language_ID,Feature_ID,Value" := by
  constructor
  · have hany : t1.any (fun l => l.chars.isNone) = true := by
      cases t1 with
      | nil => exact absurd rfl h1
      | cons l rest => simp [List.any_cons, hm l (List.mem_cons_self l rest)]
    exact (nexus_missing_case h1 hany).2.2
  · have ha := wordlistAux_all_empty t2 none rfl he
    simp only [tree2wordlist, ha]
    rfl

/-- C6 witness: the amended statement holds on one-leaf trees of each
kind. -/
theorem c6_no_chars_witness :
    ([(⟨"C", none⟩ : Leaf)] ≠ []) ∧ (∀ l ∈ [(⟨"C", none⟩ : Leaf)], l.chars = none) ∧
    ([(⟨"D", some []⟩ : Leaf)] ≠ []) ∧
    (∀ l ∈ [(⟨"D", some []⟩ : Leaf)], l.chars = some []) ∧
    ("[WARNING: characters missing from tree]\n"
        ∈ ["#NEXUS", "", "[WARNING: characters missing from tree]\n", "begin data;",
           "  dimensions ntax=1 nchar=0;", "  format datatype=standard missing=? gap=-;",
           "  matrix", "C    ", "  ;", "end;"] ∧
      ("  dimensions ntax=" ++ Nat.repr (nexusBinStrings [(⟨"C", none⟩ : Leaf)]).length
          ++ " nchar=0;")
        ∈ ["#NEXUS", "", "[WARNING: characters missing from tree]\n", "begin data;",
           "  dimensions ntax=1 nchar=0;", "  format datatype=standard missing=? gap=-;",
           "  matrix", "C    ", "  ;", "end;"]) ∧
    tree2wordlist [(⟨"D", some []⟩ : Leaf)] = Except.ok "Language_ID,Feature_ID,Value" :=
  ⟨by decide, by decide, by decide, by decide,
    (c6_no_chars_amended [⟨"C", none⟩] [⟨"D", some []⟩] (by decide) (by decide)
        (by decide) (by decide)).1 _ rfl,
    (c6_no_chars_amended [⟨"C", none⟩] [⟨"D", some []⟩] (by decide) (by decide)
        (by decide) (by decide)).2⟩

/-- C7 counterexample: the matrix line is NOT the padded name directly
followed by the binary string — the format string `"%-Ns %s"` inserts one
further space, so the claimed line shape does not occur in the output. -/
theorem c7_counterexample :
    tree2nexusBuf [⟨"A B", some ["x"]⟩] = Except.ok
      ["#NEXUS", "", "begin data;", "  dimensions ntax=1 nchar=1;",
       "  format datatype=standard missing=? gap=-;", "  matrix", "A_B    1",
       "  ;", "end;"] ∧
    pyLjust (replaceSpaces "A B") ("A B".length + 3) ++ "1" ∉
      ["#NEXUS", "", "begin data;", "  dimensions ntax=1 nchar=1;",
       "  format datatype=standard missing=? gap=-;", "  matrix", "A_B    1",
       "  ;", "end;"] := by
  refine ⟨rfl, by decide⟩

/-- C7 (amended): each matrix line is the taxon name with spaces replaced
by underscores, left-justified in a field of max_len + 3 columns,
followed by a single separator space and then the taxon's binary string
(so all binary strings still start in the same column). -/
theorem c7_matrix_line_amended (tree : List Leaf) (hne : tree ≠ []) :
    ∀ p ∈ nexusBinStrings tree, ∀ buf, tree2nexusBuf tree = Except.ok buf →
      pyLjust (replaceSpaces p.1) (nexusMaxLen tree + 3) ++ " " ++ p.2 ∈ buf := by
  intro p hp buf hbuf
  exact mem_buf_matrix hne hp buf hbuf

/-- C7 witness: the amended line shape occurs in the output of a one-leaf
tree whose taxon name contains a space. -/
theorem c7_matrix_line_witness :
    ([(⟨"A B", some ["x"]⟩ : Leaf)] ≠ []) ∧
    (("A B", "1") ∈ nexusBinStrings [(⟨"A B", some ["x"]⟩ : Leaf)]) ∧
    pyLjust (replaceSpaces ("A B", "1").1) (nexusMaxLen [(⟨"A B", some ["x"]⟩ : Leaf)] + 3)
        ++ " " ++ ("A B", "1").2
      ∈ ["#NEXUS", "", "begin data;", "  dimensions ntax=1 nchar=1;",
         "  format datatype=standard missing=? gap=-;", "  matrix", "A_B    1",
         "  ;", "end;"] :=
  ⟨by decide, by decide,
    c7_matrix_line_amended _ (by decide) ("A B", "1") (by decide) _ rfl⟩

/-- C8: whenever `tree2wordlist` succeeds, its output is the literal
header line followed by the data rows, LF-joined with no trailing
newline, and every data row is `<taxon_name>,feature_<index>,<state>`
for some leaf of the tree, a 0-based in-range index of that leaf's
vector, and the state at that index. -/
theorem c8_wordlist_format (tree : List Leaf) (s : String)
    (h : tree2wordlist tree = Except.ok s) :
    ∃ rows, s = String.intercalate "\n" ("Language_ID,Feature_ID,Value" :: rows) ∧
      ∀ r ∈ rows, ∃ l ∈ tree, ∃ cs idx st, l.chars = some cs ∧ cs[idx]? = some st ∧
        r = l.name ++ ",feature_" ++ Nat.repr idx ++ "," ++ st := by
  cases haux : tree2wordlistAux tree none with
  | error e => simp [tree2wordlist, haux] at h
  | ok rows =>
    simp only [tree2wordlist, haux, Except.ok.injEq] at h
    exact ⟨rows, h.symm, wordlistAux_row_shape tree none rows haux⟩

/-- C8 witness: the format holds on a one-leaf, one-character tree. -/
theorem c8_wordlist_format_witness :
    (tree2wordlist [(⟨"A", some ["x"]⟩ : Leaf)]
      = Except.ok "Language_ID,Feature_ID,Value\nA,feature_0,x") ∧
    ∃ rows, "Language_ID,Feature_ID,Value\nA,feature_0,x"
        = String.intercalate "\n" ("Language_ID,Feature_ID,Value" :: rows) ∧
      ∀ r ∈ rows, ∃ l ∈ [(⟨"A", some ["x"]⟩ : Leaf)], ∃ cs idx st,
        l.chars = some cs ∧ cs[idx]? = some st ∧
        r = l.name ++ ",feature_" ++ Nat.repr idx ++ "," ++ st :=
  ⟨rfl, c8_wordlist_format _ _ rfl⟩

/-- C9: each taxon's binary string holds exactly one '1' per position of
that taxon's own character vector: the taxon's state at a position always
belongs to that position's derived alphabet, and the alphabet is
duplicate-free, so each per-position block contributes exactly one
match. -/
theorem c9_one_hot (tree : List Leaf) (hne : tree ≠ []) :
    ∀ p ∈ (nexusData tree).1,
      countOnes (binStringFor p.2 (conceptStates ((nexusData tree).1.map Prod.snd)))
        = p.2.length := by
  intro p hp
  exact countOnes_data_entry hp

/-- C9 witness: on a one-leaf tree with two characters the binary string
has exactly two '1' characters. -/
theorem c9_one_hot_witness :
    ([(⟨"A", some ["x", "y"]⟩ : Leaf)] ≠ []) ∧
    (("A", ["x", "y"]) ∈ (nexusData [(⟨"A", some ["x", "y"]⟩ : Leaf)]).1) ∧
    countOnes (binStringFor (("A", ["x", "y"]) : String × List String).2
        (conceptStates ((nexusData [(⟨"A", some ["x", "y"]⟩ : Leaf)]).1.map Prod.snd)))
      = (("A", ["x", "y"]) : String × List String).2.length :=
  ⟨by decide, by decide,
    c9_one_hot _ (by decide) ("A", ["x", "y"]) (by decide)⟩

/-- C10: one leaf without a `chars` attribute makes the whole tree
character-less — the dict comprehension aborts on it and the fallback maps
every taxon to an empty vector — so the warning line is emitted, nchar is
0, and no other leaf's characters reach the output. -/
theorem c10_missing_attr_poisons (tree : List Leaf) (hne : tree ≠ [])
    (hsome : ∃ l ∈ tree, l.chars = none) :
    (∀ p ∈ (nexusData tree).1, p.2 = []) ∧ (nexusData tree).2 = true ∧
    ∀ buf, tree2nexusBuf tree = Except.ok buf →
      "[WARNING: characters missing from tree]\n" ∈ buf ∧
      ("  dimensions ntax=" ++ Nat.repr (nexusBinStrings tree).length ++ " nchar=0;") ∈ buf := by
  obtain ⟨l, hl, hlc⟩ := hsome
  have hany : tree.any (fun x => x.chars.isNone) = true := by
    rw [List.any_eq_true]
    exact ⟨l, hl, by simp [hlc]⟩
  obtain ⟨h1, h2, h3⟩ := nexus_missing_case hne hany
  exact ⟨h2, h1, h3⟩

/-- C10 witness: on a tree mixing a characterized leaf with an
attribute-less one, every dict value is empty, the flag is set, and the
warning and nchar=0 lines are in the output. -/
theorem c10_missing_attr_witness :
    ([(⟨"A", some ["x", "y"]⟩ : Leaf), ⟨"B", none⟩] ≠ []) ∧
    ((⟨"B", none⟩ : Leaf) ∈ [(⟨"A", some ["x", "y"]⟩ : Leaf), ⟨"B", none⟩] ∧
      (⟨"B", none⟩ : Leaf).chars = none) ∧
    (∀ p ∈ (nexusData [(⟨"A", some ["x", "y"]⟩ : Leaf), ⟨"B", none⟩]).1, p.2 = []) ∧
    (nexusData [(⟨"A", some ["x", "y"]⟩ : Leaf), ⟨"B", none⟩]).2 = true ∧
    ("[WARNING: characters missing from tree]\n"
        ∈ ["#NEXUS", "", "[WARNING: characters missing from tree]\n", "begin data;",
           "  dimensions ntax=2 nchar=0;", "  format datatype=standard missing=? gap=-;",
           "  matrix", "A    ", "B    ", "  ;", "end;"] ∧
      ("  dimensions ntax="
          ++ Nat.repr (nexusBinStrings [(⟨"A", some ["x", "y"]⟩ : Leaf), ⟨"B", none⟩]).length
          ++ " nchar=0;")
        ∈ ["#NEXUS", "", "[WARNING: characters missing from tree]\n", "begin data;",
           "  dimensions ntax=2 nchar=0;", "  format datatype=standard missing=? gap=-;",
           "  matrix", "A    ", "B    ", "  ;", "end;"]) :=
  ⟨by decide, ⟨by decide, rfl⟩,
    (c10_missing_attr_poisons _ (by decide) ⟨⟨"B", none⟩, by decide, rfl⟩).1,
    (c10_missing_attr_poisons _ (by decide) ⟨⟨"B", none⟩, by decide, rfl⟩).2.1,
    (c10_missing_attr_poisons _ (by decide) ⟨⟨"B", none⟩, by decide, rfl⟩).2.2 _ rfl⟩
